import Mathlib

/-!
# Verification of the call-stack capture component (`callstack.go`)

Shallow embedding of the `failure` package's call-stack capture code into
Lean 4, together with theorems settling the specification's claims about it.

Modelling conventions:
* Go strings are `List Char`.
* Go `int` is `Int` (line numbers).
* A Go slice value of type `CallStack` returned by a capture function is
  `Option (List frame)`: `none` models the `nil` slice, `some l` a non-nil
  slice holding the frames `l`.
* The host runtime's stack walking (`runtime.Callers`,
  `runtime.CallersFrames`) is out of scope for the library per the spec; it
  is modelled by an abstract environment `RuntimeEnv` holding the current
  goroutine's program counters (innermost first, following Go's convention
  that skip value 0 identifies the frame of `runtime.Callers` itself and
  skip value 1 the frame of its direct caller) and a symbolisation function
  from a program counter to a resolved runtime frame.  Inline-expansion of
  program counters is abstracted away: one program counter resolves to one
  frame.
-/

set_option autoImplicit false

namespace FailureGo

/-- Go strings, modelled as lists of characters. -/
abbrev GoStr := List Char

/-- Embedding of Go `strings.Split(s, ".")` (non-empty single-character
separator): splits `s` around every `'.'`; always yields at least one
piece (`Split("", ".") = [""]`). -/
def splitOnDot : GoStr → List GoStr
  | [] => [[]]
  | c :: rest =>
    let r := splitOnDot rest
    if c = '.' then [] :: r
    else (c :: r.headD []) :: r.tail

/-- Embedding of Go `strings.Join(parts, ".")`. -/
def joinDot : List GoStr → GoStr
  | [] => []
  | [s] => s
  | s :: t :: rest => s ++ '.' :: joinDot (t :: rest)

/-- Step of Go `path.Base`: strip trailing `'/'` characters. -/
def stripTrailingSlashes (p : GoStr) : GoStr :=
  (p.reverse.dropWhile (fun c => c = '/')).reverse

/-- Step of Go `path.Base`: keep only what follows the last `'/'`
(`strings.LastIndex(path, "/")`; when no slash occurs the string is kept
whole). -/
def afterLastSlash (p : GoStr) : GoStr :=
  (p.reverse.takeWhile (fun c => c ≠ '/')).reverse

/-- Embedding of Go `path.Base`: `"."` for the empty path; otherwise strip
trailing slashes, take the last path element, and answer `"/"` when the
path consisted only of slashes. -/
def pathBase (p : GoStr) : GoStr :=
  if p = [] then ['.']
  else
    let q := afterLastSlash (stripTrailingSlashes p)
    if q = [] then ['/'] else q

/-- Embedding of Go `path/filepath.Base` on a Unix host: the path separator
is `'/'` and the volume name is empty, so the algorithm coincides with
`path.Base`. -/
def filepathBase (p : GoStr) : GoStr :=
  pathBase p

/-- Embedding of the struct `frame` of `callstack.go`: one resolved stack
entry, holding the absolute file path, the line number and the fully
qualified function name. -/
structure frame where
  file : GoStr
  line : Int
  function : GoStr
deriving DecidableEq, Repr

/-- Embedding of `frame.Path`: the full file path. -/
def frame.Path (f : frame) : GoStr :=
  f.file

/-- Embedding of `frame.File`: `filepath.Base(f.file)`. -/
def frame.File (f : frame) : GoStr :=
  filepathBase f.file

/-- Embedding of `frame.Line`. -/
def frame.Line (f : frame) : Int :=
  f.line

/-- Embedding of `frame.Func`: split `path.Base(f.function)` on `'.'` and
join all pieces but the first with `'.'`.  The Go source guards with
`len(fs) >= 1`; its `else` branch returns `fs[0]`, an access that would be
out of range there (`len(fs) == 0`), modelled totally by `headD`. -/
def frame.Func (f : frame) : GoStr :=
  let fs := splitOnDot (pathBase f.function)
  if 1 ≤ fs.length then joinDot (fs.drop 1) else fs.headD []

/-- Embedding of `frame.Pkg`: the first piece of `path.Base(f.function)`
split on `'.'` (Go indexes `fs[0]`, in range because the split is never
empty; modelled totally by `headD`). -/
def frame.Pkg (f : frame) : GoStr :=
  let fs := splitOnDot (pathBase f.function)
  fs.headD []

/-! ### Helper lemmas about the string operations -/

theorem splitOnDot_ne_nil (l : GoStr) : splitOnDot l ≠ [] := by
  cases l with
  | nil => simp [splitOnDot]
  | cons c rest =>
    simp only [splitOnDot]
    split <;> simp

theorem joinDot_splitOnDot (l : GoStr) : joinDot (splitOnDot l) = l := by
  induction l with
  | nil => simp [splitOnDot, joinDot]
  | cons c rest ih =>
    simp only [splitOnDot]
    rcases hr : splitOnDot rest with _ | ⟨g, gs⟩
    · exact absurd hr (splitOnDot_ne_nil rest)
    · rw [hr] at ih
      by_cases hc : c = '.'
      · subst hc
        simpa [joinDot] using ih
      · rcases gs with _ | ⟨g', gs'⟩
        · simp only [if_neg hc, List.headD, List.tail]
          simpa [joinDot] using congrArg (c :: ·) ih
        · simp only [if_neg hc, List.headD, List.tail]
          simp only [joinDot] at ih ⊢
          rw [← ih]
          simp

theorem joinDot_tail_splitOnDot (l : GoStr) :
    joinDot ((splitOnDot l).drop 1) = (l.dropWhile (fun c => c ≠ '.')).drop 1 := by
  induction l with
  | nil => simp [splitOnDot, joinDot]
  | cons c rest ih =>
    by_cases hc : c = '.'
    · subst hc
      have h1 : splitOnDot ('.' :: rest) = [] :: splitOnDot rest := by
        simp [splitOnDot]
      rw [h1, List.drop_one, List.tail_cons, joinDot_splitOnDot,
          List.dropWhile_cons]
      simp
    · rcases hr : splitOnDot rest with _ | ⟨g, gs⟩
      · exact absurd hr (splitOnDot_ne_nil rest)
      · have h1 : splitOnDot (c :: rest) = (c :: g) :: gs := by
          simp [splitOnDot, if_neg hc, hr]
        rw [h1, List.drop_one, List.tail_cons, List.dropWhile_cons,
            if_pos (by simp [hc])]
        rw [hr] at ih
        simpa using ih

theorem headD_splitOnDot (l : GoStr) :
    (splitOnDot l).headD [] = l.takeWhile (fun c => c ≠ '.') := by
  induction l with
  | nil => simp [splitOnDot]
  | cons c rest ih =>
    by_cases hc : c = '.'
    · subst hc
      simp [splitOnDot, List.takeWhile_cons]
    · have h1 : (splitOnDot (c :: rest)).headD [] =
          c :: (splitOnDot rest).headD [] := by
        simp [splitOnDot, if_neg hc]
      rw [h1, List.takeWhile_cons, if_pos (by simp [hc]), ih]

theorem splitOnDot_no_dot (l : GoStr) (h : '.' ∉ l) : splitOnDot l = [l] := by
  induction l with
  | nil => rfl
  | cons c rest ih =>
    have hc : c ≠ '.' := by
      intro hcc
      exact h (hcc ▸ List.mem_cons_self c rest)
    have hrest : '.' ∉ rest := fun hm => h (List.mem_cons_of_mem c hm)
    simp [splitOnDot, if_neg hc, ih hrest]

theorem mem_stripTrailingSlashes {a : Char} {p : GoStr}
    (h : a ∈ stripTrailingSlashes p) : a ∈ p := by
  unfold stripTrailingSlashes at h
  rw [List.mem_reverse] at h
  have := (List.dropWhile_sublist (l := p.reverse) (p := fun c => c = '/')).mem h
  rwa [List.mem_reverse] at this

theorem mem_afterLastSlash {a : Char} {p : GoStr}
    (h : a ∈ afterLastSlash p) : a ∈ p := by
  unfold afterLastSlash at h
  rw [List.mem_reverse] at h
  have := (List.takeWhile_sublist (l := p.reverse) (p := fun c => c ≠ '/')).mem h
  rwa [List.mem_reverse] at this

theorem mem_pathBase {a : Char} {p : GoStr} (hp : p ≠ [])
    (h : a ∈ pathBase p) : a ∈ p ∨ a = '/' := by
  unfold pathBase at h
  rw [if_neg hp] at h
  by_cases hq : afterLastSlash (stripTrailingSlashes p) = []
  · rw [if_pos hq] at h
    right
    simpa using h
  · rw [if_neg hq] at h
    exact Or.inl (mem_stripTrailingSlashes (mem_afterLastSlash h))

/-! ### The host runtime model -/

/-- A resolved `runtime.Frame` as consumed by `callstack.go`: only the
`File`, `Line` and `Function` fields are read.  The zero value (empty
strings, line 0) is what `runtime.Frames.Next` yields once the program
counters are exhausted. -/
structure RuntimeFrame where
  File : GoStr
  Line : Int
  Function : GoStr
deriving DecidableEq, Repr

/-- The zero `runtime.Frame` value. -/
def zeroRuntimeFrame : RuntimeFrame :=
  { File := [], Line := 0, Function := [] }

/-- Abstract state of the host runtime at a capture point: the program
counters of the current goroutine's stack, innermost first (index 0
identifies the frame of `runtime.Callers` itself, per Go's skip
convention), and the symbolisation map used by `runtime.CallersFrames`. -/
structure RuntimeEnv where
  stack : List Nat
  resolve : Nat → RuntimeFrame

/-- Embedding of `runtime.Callers(skip, buf)` with a buffer of capacity
`cap`: it records at most `cap` program counters of the current stack
after skipping the first `skip`, and reports how many it recorded (the
length of the returned list). -/
def runtimeCallers (env : RuntimeEnv) (skip : Nat) (cap : Nat) : List Nat :=
  (env.stack.drop skip).take cap

/-- The conversion `frame{f.File, f.Line, f.Function}` performed inside
both capture loops of `callstack.go`. -/
def mkFrame (f : RuntimeFrame) : frame :=
  { file := f.File, line := f.Line, function := f.Function }

/-- Embedding of the shared `for { f, more := fs.Next(); cs = append(...);
if !more { break } }` loop over `runtime.CallersFrames(pcs)`.  `Next` on an
exhausted iterator yields the zero frame with `more == false`, so the loop
body runs at least once and an empty `pcs` still appends one zero-valued
frame.  Inline expansion is abstracted away: each program counter resolves
to exactly one frame. -/
def callersFramesLoop (resolve : Nat → RuntimeFrame) : List Nat → List frame
  | [] => [mkFrame zeroRuntimeFrame]
  | [pc] => [mkFrame (resolve pc)]
  | pc :: pc' :: rest => mkFrame (resolve pc) :: callersFramesLoop resolve (pc' :: rest)

/-- A Go value of slice type `CallStack`: `none` is the `nil` slice,
`some l` a non-nil slice holding the frames `l`. -/
abbrev CallStackValue := Option (List frame)

/-- Embedding of `Callers(skip)` from `callstack.go`: request up to 32
program counters from the runtime starting `skip+2` frames up (skipping
`runtime.Callers` and `Callers` itself), answer `nil` when none were
recorded, and otherwise resolve them through the `CallersFrames` loop. -/
def Callers (env : RuntimeEnv) (skip : Nat) : CallStackValue :=
  let pcs := runtimeCallers env (skip + 2) 32
  let n := pcs.length
  if n = 0 then none
  else some (callersFramesLoop env.resolve pcs)

/-- Embedding of `CallStackFromPkgErrors(st)` from `callstack.go`: the
foreign `errors.StackTrace` is a list of raw program counters (each
`errors.Frame` is a `uintptr`); they are resolved through the same
`CallersFrames` loop.  The result slice is built with `make` and `append`,
hence never `nil`. -/
def CallStackFromPkgErrors (env : RuntimeEnv) (st : List Nat) : CallStackValue :=
  let pcs := st
  some (callersFramesLoop env.resolve pcs)

/-! ### Formatting (the default `%v` path of `CallStack.Format`) -/

/-- Go slice indexing `l[i]`: `none` models the out-of-range panic. -/
def goIndex {α : Type} (l : List α) (i : Int) : Option α :=
  if 0 ≤ i then l.get? i.toNat else none

/-- Go slicing `l[:j]`: `none` models the out-of-range panic. -/
def goSliceTo {α : Type} (l : List α) (j : Int) : Option (List α) :=
  if 0 ≤ j ∧ j ≤ l.length then some (l.take j.toNat) else none

/-- Embedding of the default branch of `CallStack.Format` for verb `v`
(no `+`/`#` flag): nothing is written for an empty stack; otherwise each
frame of `cs[:l-1]` contributes `Func() ++ ": "` and the last frame
`cs[l-1]` contributes `Func()`.  The result is the written string, `none`
modelling a bounds panic in the slice or index expressions. -/
def formatVDefault (cs : List frame) : Option GoStr :=
  let l := cs.length
  if l = 0 then some []
  else
    match goSliceTo cs ((l : Int) - 1), goIndex cs ((l : Int) - 1) with
    | some pre, some last =>
        some ((pre.map (fun pc => pc.Func ++ [':', ' '])).flatten ++ last.Func)
    | _, _ => none

/-! ### Helper lemmas about the capture loop -/

theorem callersFramesLoop_eq_map (resolve : Nat → RuntimeFrame) :
    ∀ pcs : List Nat, pcs ≠ [] →
      callersFramesLoop resolve pcs = pcs.map (fun pc => mkFrame (resolve pc))
  | [], h => absurd rfl h
  | [pc], _ => rfl
  | pc :: pc' :: rest, _ => by
    rw [List.map_cons,
        show callersFramesLoop resolve (pc :: pc' :: rest) =
          mkFrame (resolve pc) :: callersFramesLoop resolve (pc' :: rest) from rfl,
        callersFramesLoop_eq_map resolve (pc' :: rest) (by simp)]

theorem callersFramesLoop_length (resolve : Nat → RuntimeFrame)
    (pcs : List Nat) (h : pcs ≠ []) :
    (callersFramesLoop resolve pcs).length = pcs.length := by
  rw [callersFramesLoop_eq_map resolve pcs h, List.length_map]

/-! ### Spec-side accessor definitions (for the refinement claim) -/

/-- Stated from the spec's words, to be compared with `frame.Pkg`: the
owning package qualifier is the segment of the path-base of the qualified
function name that precedes its first `'.'`. -/
def specPkgQualifier (qualified : GoStr) : GoStr :=
  (pathBase qualified).takeWhile (fun c => c ≠ '.')

/-- Stated from the spec's words, to be compared with `frame.Func`: the
bare function name is the path-base of the qualified function name with
the leading package qualifier and its `'.'` stripped (empty when no `'.'`
occurs). -/
def specBareFunc (qualified : GoStr) : GoStr :=
  ((pathBase qualified).dropWhile (fun c => c ≠ '.')).drop 1

/-! ### Method-call embedding of the accessors

Go calls the accessors on a value receiver; a call is embedded as a state
transformer returning the result together with the caller's frame after
the call.  The method bodies contain no assignment to the receiver, so the
post-state is the receiver itself. -/

/-- One call of `f.Path()`: result and the frame after the call. -/
def frame.pathCall (f : frame) : GoStr × frame :=
  (f.file, f)

/-- One call of `f.File()`: result and the frame after the call. -/
def frame.fileCall (f : frame) : GoStr × frame :=
  (filepathBase f.file, f)

/-- One call of `f.Line()`: result and the frame after the call. -/
def frame.lineCall (f : frame) : Int × frame :=
  (f.line, f)

/-- One call of `f.Func()`: result and the frame after the call. -/
def frame.funcCall (f : frame) : GoStr × frame :=
  (f.Func, f)

/-- One call of `f.Pkg()`: result and the frame after the call. -/
def frame.pkgCall (f : frame) : GoStr × frame :=
  (f.Pkg, f)

/-! ### Concrete runtime environments used by witnesses -/

/-- A runtime state with an empty goroutine stack: no frame resolves. -/
def emptyEnv : RuntimeEnv :=
  { stack := [], resolve := fun _ => zeroRuntimeFrame }

/-- A concrete symbolisation map for witnesses. -/
def sampleResolve : Nat → RuntimeFrame := fun pc =>
  { File := ['a', '/', 'f', '.', 'g', 'o'],
    Line := (pc : Int),
    Function := ['p', 'k', 'g', '.', 'F'] }

/-- A concrete runtime state with four stack frames. -/
def sampleEnv : RuntimeEnv :=
  { stack := [10, 11, 12, 13], resolve := sampleResolve }

/-! ### Claims about `Callers` and `CallStackFromPkgErrors` -/

/-- C1, counterexample: the claim says a zero-frame capture returns an
empty, not absent, `CallStack`; but with no resolvable frames `Callers`
returns the `nil` (absent) slice, not a non-nil empty one. -/
theorem callers_zero_frames_absent_counterexample :
    Callers emptyEnv 0 = none ∧ Callers emptyEnv 0 ≠ some [] := by
  exact ⟨rfl, by simp [Callers, runtimeCallers, emptyEnv]⟩

/-- C1, amended: if zero stack frames are recorded by the runtime,
`Callers` returns the `nil` call stack — the absent slice value, which has
length zero — and never signals an error. -/
theorem callers_zero_frames_nil (env : RuntimeEnv) (skip : Nat)
    (h : runtimeCallers env (skip + 2) 32 = []) :
    Callers env skip = none := by
  unfold Callers
  simp [h]

/-- Witness for C1's amended theorem at a concrete runtime state. -/
theorem callers_zero_frames_nil_witness :
    Callers emptyEnv 1 = none :=
  callers_zero_frames_nil emptyEnv 1 rfl

/-- C3: one call of `Callers` requests at most 32 raw program counters,
and when the runtime records fewer than that bound (but at least one) the
capture still succeeds, returning a stack exactly as long as what was
recorded. -/
theorem callers_bounded_capture (env : RuntimeEnv) (skip : Nat) :
    (runtimeCallers env (skip + 2) 32).length ≤ 32 ∧
    (0 < (runtimeCallers env (skip + 2) 32).length →
      ∃ cs, Callers env skip = some cs ∧
        cs.length = (runtimeCallers env (skip + 2) 32).length) := by
  constructor
  · unfold runtimeCallers
    rw [List.length_take]
    omega
  · intro hpos
    have hne : runtimeCallers env (skip + 2) 32 ≠ [] := by
      intro hnil
      rw [hnil] at hpos
      simp at hpos
    refine ⟨callersFramesLoop env.resolve (runtimeCallers env (skip + 2) 32), ?_, ?_⟩
    · unfold Callers
      rw [if_neg (by simpa [List.length_eq_zero] using hne)]
    · exact callersFramesLoop_length env.resolve _ hne

/-- Witness for C3 at a concrete runtime state with four stack frames. -/
theorem callers_bounded_capture_witness :
    (runtimeCallers sampleEnv 2 32).length ≤ 32 ∧
    ∃ cs, Callers sampleEnv 0 = some cs ∧
      cs.length = (runtimeCallers sampleEnv 2 32).length :=
  ⟨(callers_bounded_capture sampleEnv 0).1,
   (callers_bounded_capture sampleEnv 0).2 (by decide)⟩

/-- C4: `Callers(skip)` passes `skip + 2` to the runtime primitive,
omitting the frames of `runtime.Callers` and `Callers` itself plus `skip`
more, so the first returned frame is the stack entry `skip + 2` deep —
the application call site `skip` levels above the caller of `Callers`. -/
theorem callers_skip_first_frame (env : RuntimeEnv) (skip : Nat)
    (cs : List frame) (h : Callers env skip = some cs) :
    cs.head? = (env.stack[skip + 2]?).map (fun pc => mkFrame (env.resolve pc)) := by
  unfold Callers at h
  by_cases hn : (runtimeCallers env (skip + 2) 32).length = 0
  · rw [if_pos hn] at h
    exact absurd h (by simp)
  · rw [if_neg hn] at h
    have hne : runtimeCallers env (skip + 2) 32 ≠ [] := by
      intro hnil
      exact hn (by rw [hnil]; rfl)
    have hcs : cs = (runtimeCallers env (skip + 2) 32).map
        (fun pc => mkFrame (env.resolve pc)) := by
      have h2 := Option.some_inj.mp h
      rw [← h2, callersFramesLoop_eq_map env.resolve _ hne]
    rw [hcs, List.head?_map]
    have h32 : (runtimeCallers env (skip + 2) 32).head? =
        (env.stack.drop (skip + 2)).head? := by
      unfold runtimeCallers
      cases hd : env.stack.drop (skip + 2) with
      | nil => rfl
      | cons a l => rfl
    rw [h32, List.head?_drop]

/-- Witness for C4 at a concrete runtime state, skip 0. -/
theorem callers_skip_first_frame_witness :
    (callersFramesLoop sampleEnv.resolve [12, 13]).head? =
      (sampleEnv.stack[2]?).map (fun pc => mkFrame (sampleEnv.resolve pc)) :=
  callers_skip_first_frame sampleEnv 0 _ (by rfl)

/-- C5, counterexample: the claim says the result frames are exactly the
resolved input addresses in order, for every foreign trace; but the empty
trace yields one zero-valued frame instead of an empty frame list. -/
theorem pkg_errors_exact_map_counterexample :
    CallStackFromPkgErrors emptyEnv [] = some [mkFrame zeroRuntimeFrame] ∧
    ([mkFrame zeroRuntimeFrame] : List frame) ≠
      ([] : List Nat).map (fun pc => mkFrame (emptyEnv.resolve pc)) := by
  exact ⟨rfl, by simp⟩

/-- C5, amended: for every non-empty foreign trace,
`CallStackFromPkgErrors` returns exactly the resolved
`{file, line, qualified function}` of the input addresses, in the same
order; the empty trace instead yields a single zero-valued frame. -/
theorem pkg_errors_normalizes (env : RuntimeEnv) (st : List Nat) (h : st ≠ []) :
    CallStackFromPkgErrors env st =
      some (st.map (fun pc => mkFrame (env.resolve pc))) := by
  show some (callersFramesLoop env.resolve st) = _
  rw [callersFramesLoop_eq_map env.resolve st h]

/-- Witness for C5's amended theorem on a one-address foreign trace. -/
theorem pkg_errors_normalizes_witness :
    CallStackFromPkgErrors sampleEnv [7] =
      some ([7].map (fun pc => mkFrame (sampleEnv.resolve pc))) :=
  pkg_errors_normalizes sampleEnv [7] (by decide)

/-- C10: `CallStackFromPkgErrors` never returns an empty (or absent) call
stack: every input, the empty trace included, yields a non-nil stack of
length at least one, the empty trace yielding exactly one zero-valued
frame — unlike `Callers`, which returns the absent (nil) stack when zero
frames resolve. -/
theorem pkg_errors_never_empty :
    (∀ (env : RuntimeEnv) (st : List Nat),
      ∃ cs, CallStackFromPkgErrors env st = some cs ∧ 1 ≤ cs.length) ∧
    (∀ env : RuntimeEnv,
      CallStackFromPkgErrors env [] = some [mkFrame zeroRuntimeFrame]) ∧
    (∀ (env : RuntimeEnv) (skip : Nat),
      runtimeCallers env (skip + 2) 32 = [] → Callers env skip = none) := by
  refine ⟨?_, ?_, ?_⟩
  · intro env st
    refine ⟨callersFramesLoop env.resolve st, rfl, ?_⟩
    cases st with
    | nil => simp [callersFramesLoop]
    | cons pc rest =>
      rw [callersFramesLoop_length env.resolve _ (by simp)]
      simp
  · intro env
    rfl
  · intro env skip h
    unfold Callers
    simp [h]

/-- Witness for C10 at concrete runtime states. -/
theorem pkg_errors_never_empty_witness :
    (∃ cs, CallStackFromPkgErrors emptyEnv [] = some cs ∧ 1 ≤ cs.length) ∧
    Callers emptyEnv 5 = none :=
  ⟨pkg_errors_never_empty.1 emptyEnv [],
   pkg_errors_never_empty.2.2 emptyEnv 5 (by rfl)⟩

/-- C2: both captures preserve the runtime's innermost-first order: the
frame at index `i` of a stack returned by `Callers` is the resolution of
the `i`-th recorded program counter (index 0 being the one closest to the
call site), and likewise for `CallStackFromPkgErrors` on the foreign
trace's addresses. -/
theorem capture_order_innermost_first :
    (∀ (env : RuntimeEnv) (skip : Nat) (cs : List frame),
        Callers env skip = some cs →
        ∀ i : Nat, cs[i]? =
          ((runtimeCallers env (skip + 2) 32)[i]?).map
            (fun pc => mkFrame (env.resolve pc))) ∧
    (∀ (env : RuntimeEnv) (st : List Nat) (cs : List frame),
        CallStackFromPkgErrors env st = some cs →
        ∀ i : Nat, i < st.length →
          cs[i]? = (st[i]?).map (fun pc => mkFrame (env.resolve pc))) := by
  constructor
  · intro env skip cs h i
    unfold Callers at h
    by_cases hn : (runtimeCallers env (skip + 2) 32).length = 0
    · rw [if_pos hn] at h
      exact absurd h (by simp)
    · rw [if_neg hn] at h
      have hne : runtimeCallers env (skip + 2) 32 ≠ [] := by
        intro hnil
        exact hn (by rw [hnil]; rfl)
      have h2 := Option.some_inj.mp h
      rw [← h2, callersFramesLoop_eq_map env.resolve _ hne, List.getElem?_map]
  · intro env st cs h i hi
    have hne : st ≠ [] := by
      intro hnil
      rw [hnil] at hi
      simp at hi
    have h2 : callersFramesLoop env.resolve st = cs := Option.some_inj.mp h
    rw [← h2, callersFramesLoop_eq_map env.resolve st hne, List.getElem?_map]

/-- Witness for C2 at concrete captures (index 0 of each). -/
theorem capture_order_innermost_first_witness :
    (callersFramesLoop sampleEnv.resolve [12, 13])[0]? =
      ((runtimeCallers sampleEnv 2 32)[0]?).map
        (fun pc => mkFrame (sampleEnv.resolve pc)) ∧
    (callersFramesLoop sampleEnv.resolve [7])[0]? =
      (([7] : List Nat)[0]?).map (fun pc => mkFrame (sampleEnv.resolve pc)) :=
  ⟨capture_order_innermost_first.1 sampleEnv 0 _ (by rfl) 0,
   capture_order_innermost_first.2 sampleEnv [7] _ (by rfl) 0 (by decide)⟩

/-- C6: the derived accessors refine the spec's description — `File` is
the base name of the frame's file path, `Func` is the qualified name's
path-base with its leading package qualifier (the segment before the
first dot) stripped, and `Pkg` is exactly that qualifier segment. -/
theorem frame_accessors_refine (f : frame) :
    f.File = filepathBase f.file ∧
    f.Func = specBareFunc f.function ∧
    f.Pkg = specPkgQualifier f.function := by
  refine ⟨rfl, ?_, ?_⟩
  · show (if 1 ≤ (splitOnDot (pathBase f.function)).length
        then joinDot ((splitOnDot (pathBase f.function)).drop 1)
        else (splitOnDot (pathBase f.function)).headD []) = _
    rw [if_pos (by
      have h1 : 0 < (splitOnDot (pathBase f.function)).length :=
        List.length_pos.mpr (splitOnDot_ne_nil (pathBase f.function))
      omega)]
    exact joinDot_tail_splitOnDot (pathBase f.function)
  · show (splitOnDot (pathBase f.function)).headD [] = _
    exact headD_splitOnDot (pathBase f.function)

/-- C7: frames are immutable — each accessor call leaves the receiver's
three stored fields unchanged, a repeated call returns the same value, and
the returned value is computed only from the stored fields (frames with
equal fields agree on every accessor). -/
theorem frame_immutable (f : frame) :
    (f.pathCall.2 = f ∧ f.fileCall.2 = f ∧ f.lineCall.2 = f ∧
      f.funcCall.2 = f ∧ f.pkgCall.2 = f) ∧
    (f.pathCall.2.pathCall.1 = f.pathCall.1 ∧
      f.fileCall.2.fileCall.1 = f.fileCall.1 ∧
      f.lineCall.2.lineCall.1 = f.lineCall.1 ∧
      f.funcCall.2.funcCall.1 = f.funcCall.1 ∧
      f.pkgCall.2.pkgCall.1 = f.pkgCall.1) ∧
    (∀ g : frame, f.file = g.file → f.line = g.line → f.function = g.function →
      f.Path = g.Path ∧ f.File = g.File ∧ f.Line = g.Line ∧
        f.Func = g.Func ∧ f.Pkg = g.Pkg) := by
  refine ⟨⟨rfl, rfl, rfl, rfl, rfl⟩, ⟨rfl, rfl, rfl, rfl, rfl⟩, ?_⟩
  intro g h1 h2 h3
  refine ⟨h1, ?_, h2, ?_, ?_⟩
  · show filepathBase f.file = filepathBase g.file
    rw [h1]
  · simp only [frame.Func]
    rw [h3]
  · simp only [frame.Pkg]
    rw [h3]

/-- Witness for C7: two identical concrete frames agree on all accessors. -/
theorem frame_immutable_witness :
    (frame.mk ['a'] 1 ['p', '.', 'q']).Path = (frame.mk ['a'] 1 ['p', '.', 'q']).Path ∧
    (frame.mk ['a'] 1 ['p', '.', 'q']).File = (frame.mk ['a'] 1 ['p', '.', 'q']).File ∧
    (frame.mk ['a'] 1 ['p', '.', 'q']).Line = (frame.mk ['a'] 1 ['p', '.', 'q']).Line ∧
    (frame.mk ['a'] 1 ['p', '.', 'q']).Func = (frame.mk ['a'] 1 ['p', '.', 'q']).Func ∧
    (frame.mk ['a'] 1 ['p', '.', 'q']).Pkg = (frame.mk ['a'] 1 ['p', '.', 'q']).Pkg :=
  (frame_immutable (frame.mk ['a'] 1 ['p', '.', 'q'])).2.2
    (frame.mk ['a'] 1 ['p', '.', 'q']) rfl rfl rfl

/-- C8: formatting with the default `v` verb is total — the empty stack
writes nothing (and, thanks to the length guard, the slice and index
expressions never go out of bounds on any stack). -/
theorem format_empty_silent_total :
    formatVDefault [] = some [] ∧
    ∀ cs : List frame, (formatVDefault cs).isSome = true := by
  constructor
  · rfl
  · intro cs
    cases cs with
    | nil => rfl
    | cons c rest =>
      simp only [formatVDefault, goSliceTo, goIndex, List.length_cons]
      rw [if_neg (by omega)]
      have h0 : (0 : Int) ≤ ((rest.length + 1 : Nat) : Int) - 1 := by
        push_cast
        omega
      have h1 : ((rest.length + 1 : Nat) : Int) - 1 ≤ ((rest.length + 1 : Nat) : Int) := by
        omega
      rw [if_pos ⟨h0, by push_cast; push_cast at h1 ⊢; omega⟩, if_pos h0]
      have ht : (((rest.length + 1 : Nat) : Int) - 1).toNat = rest.length := by
        push_cast
        omega
      rw [ht]
      have h4 : (c :: rest).get? rest.length ≠ none := by
        rw [ne_eq, List.get?_eq_none]
        simp
      cases hg : (c :: rest).get? rest.length with
      | none => exact absurd hg h4
      | some last => simp

/-- C9: in `frame.Func`, splitting always yields at least one piece, so
the `len(fs) >= 1` test is always true and the fallback `return fs[0]`
is unreachable; consequently a frame whose qualified function name
contains no dot gets the empty string from `Func`, not the name itself. -/
theorem func_fallback_unreachable :
    (∀ s : GoStr, splitOnDot s ≠ []) ∧
    (∀ f : frame, 1 ≤ (splitOnDot (pathBase f.function)).length) ∧
    (∀ f : frame, '.' ∉ f.function → f.Func = []) := by
  refine ⟨splitOnDot_ne_nil, ?_, ?_⟩
  · intro f
    have h1 : 0 < (splitOnDot (pathBase f.function)).length :=
      List.length_pos.mpr (splitOnDot_ne_nil (pathBase f.function))
    omega
  · intro f hdot
    have hFunc : f.Func = ((pathBase f.function).dropWhile (fun c => c ≠ '.')).drop 1 := by
      show (if 1 ≤ (splitOnDot (pathBase f.function)).length
          then joinDot ((splitOnDot (pathBase f.function)).drop 1)
          else (splitOnDot (pathBase f.function)).headD []) = _
      rw [if_pos (by
        have h1 : 0 < (splitOnDot (pathBase f.function)).length :=
          List.length_pos.mpr (splitOnDot_ne_nil (pathBase f.function))
        omega)]
      exact joinDot_tail_splitOnDot (pathBase f.function)
    rw [hFunc]
    by_cases hnil : f.function = []
    · rw [hnil]
      rfl
    · have hnd : '.' ∉ pathBase f.function := by
        intro hmem
        rcases mem_pathBase hnil hmem with h | h
        · exact hdot h
        · exact absurd h (by decide)
      have hdw : (pathBase f.function).dropWhile (fun c => c ≠ '.') = [] := by
        rw [List.dropWhile_eq_nil_iff]
        intro a ha
        simp only [ne_eq, decide_eq_true_eq]
        intro heq
        exact hnd (heq ▸ ha)
      rw [hdw]
      rfl

/-- Witness for C9: a dotless function name gets the empty `Func`. -/
theorem func_fallback_unreachable_witness :
    (frame.mk [] 0 ['m', 'a', 'i', 'n']).Func = [] :=
  func_fallback_unreachable.2.2 (frame.mk [] 0 ['m', 'a', 'i', 'n']) (by decide)

end FailureGo
